import Mathlib

/-!
Verification of the DNA-ANALYZER core (`src/dnaUtils.js`).

The JavaScript functions are shallowly embedded over `List Char` (a JS
string is its list of characters).  Numeric results that JS computes as
floating-point decimals are modelled over `ℚ` (and `ℝ` where the code
uses `Math.log10`); `Number(x.toFixed(n))` is modelled as rounding to
`n` decimal places, half away from zero for the nonnegative values that
occur here.
-/

namespace DnaUtils

/-- Embeds `cleanSeq`: uppercase the input and keep only A/T/G/C characters
(`seq.toUpperCase().replace(/[^ATGC]/g, "")`). -/
def cleanSeq (seq : List Char) : List Char :=
  (seq.map Char.toUpper).filter fun c => c == 'A' || c == 'T' || c == 'G' || c == 'C'

/-- The complement map `{ A: "T", T: "A", G: "C", C: "G" }`; `comp[nuc]` is
`undefined` (here `none`) off the four nucleotides, which the code turns into
the empty string via `|| ""`. -/
def comp : Char → Option Char
  | 'A' => some 'T'
  | 'T' => some 'A'
  | 'G' => some 'C'
  | 'C' => some 'G'
  | _ => none

/-- Embeds `reverseComplement`: clean, reverse, map each nucleotide through
`comp` dropping unmapped characters (`.map((nuc) => comp[nuc] || "").join("")`). -/
def reverseComplement (seq : List Char) : List Char :=
  ((cleanSeq seq).reverse).filterMap comp

/-- Rounding to two decimal places (half up, `⌊q*100 + 1/2⌋/100`): models
`Number(x.toFixed(2))` on the nonnegative values produced by the percentage
and weight computations. -/
def round2 (q : ℚ) : ℚ := (Int.floor (q * 100 + 1 / 2) : ℚ) / 100

/-- Embeds `gcContent`: percentage of G/C characters in the cleaned sequence,
rounded to two decimals; `0` for the empty sequence. -/
def gcContent (seq : List Char) : ℚ :=
  let s := cleanSeq seq
  if s.length = 0 then 0
  else round2 (((s.filter fun n => n == 'G' || n == 'C').length : ℚ) / s.length * 100)

/-- Embeds `atContent`: percentage of A/T characters in the cleaned sequence,
rounded to two decimals; `0` for the empty sequence. -/
def atContent (seq : List Char) : ℚ :=
  let s := cleanSeq seq
  if s.length = 0 then 0
  else round2 (((s.filter fun n => n == 'A' || n == 'T').length : ℚ) / s.length * 100)

/-- Characters surviving `cleanSeq` are nucleotides. -/
theorem mem_cleanSeq {s : List Char} {c : Char} (h : c ∈ cleanSeq s) :
    c = 'A' ∨ c = 'T' ∨ c = 'G' ∨ c = 'C' := by
  have := List.of_mem_filter h
  simp only [Bool.or_eq_true, beq_iff_eq] at this
  tauto

/-- A list of nucleotide characters is fixed by `cleanSeq`. -/
theorem cleanSeq_fixed {s : List Char}
    (h : ∀ c ∈ s, c = 'A' ∨ c = 'T' ∨ c = 'G' ∨ c = 'C') : cleanSeq s = s := by
  unfold cleanSeq
  have hmap : s.map Char.toUpper = s := by
    induction s with
    | nil => rfl
    | cons a l ih =>
      have ha := h a (by simp)
      have hl : ∀ c ∈ l, c = 'A' ∨ c = 'T' ∨ c = 'G' ∨ c = 'C' := fun c hc => h c (by simp [hc])
      simp only [List.map_cons, ih hl, List.cons.injEq, and_true]
      rcases ha with rfl | rfl | rfl | rfl <;> decide
  rw [hmap]
  apply List.filter_eq_self.mpr
  intro a ha
  rcases h a ha with rfl | rfl | rfl | rfl <;> decide

/-- Cleaning is idempotent. -/
theorem cleanSeq_idem (s : List Char) : cleanSeq (cleanSeq s) = cleanSeq s :=
  cleanSeq_fixed fun _ hc => mem_cleanSeq hc

/-- Characters of a reverse complement are nucleotides. -/
theorem mem_reverseComplement {s : List Char} {c : Char} (h : c ∈ reverseComplement s) :
    c = 'A' ∨ c = 'T' ∨ c = 'G' ∨ c = 'C' := by
  unfold reverseComplement at h
  obtain ⟨a, ha, hc⟩ := List.mem_filterMap.mp h
  have := mem_cleanSeq (List.mem_reverse.mp ha)
  rcases this with rfl | rfl | rfl | rfl <;> simp [comp] at hc <;> subst hc <;> tauto

/-- The reverse complement is already clean. -/
theorem cleanSeq_reverseComplement (s : List Char) :
    cleanSeq (reverseComplement s) = reverseComplement s :=
  cleanSeq_fixed fun _ hc => mem_reverseComplement hc

/-- Complementing twice is the identity on nucleotide lists. -/
theorem filterMap_comp_comp {l : List Char}
    (h : ∀ c ∈ l, c = 'A' ∨ c = 'T' ∨ c = 'G' ∨ c = 'C') :
    (l.filterMap comp).filterMap comp = l := by
  induction l with
  | nil => rfl
  | cons a t ih =>
    have ha := h a (by simp)
    have ht : ∀ c ∈ t, c = 'A' ∨ c = 'T' ∨ c = 'G' ∨ c = 'C' := fun c hc => h c (by simp [hc])
    rcases ha with rfl | rfl | rfl | rfl <;>
      simp [List.filterMap_cons, comp, ih ht]

/-- `filterMap` commutes with `reverse`. -/
theorem filterMap_reverse (f : Char → Option Char) (l : List Char) :
    (l.reverse).filterMap f = (l.filterMap f).reverse := by
  induction l with
  | nil => rfl
  | cons a t ih =>
    simp [List.filterMap_cons, List.filterMap_append, ih]
    cases f a <;> simp

/-- Complementation preserves length and the number of G/C characters on
nucleotide lists (`comp` swaps G with C and A with T). -/
theorem filterMap_comp_counts {l : List Char}
    (h : ∀ c ∈ l, c = 'A' ∨ c = 'T' ∨ c = 'G' ∨ c = 'C') :
    (l.filterMap comp).length = l.length ∧
      ((l.filterMap comp).filter fun n => n == 'G' || n == 'C').length =
        (l.filter fun n => n == 'G' || n == 'C').length := by
  induction l with
  | nil => exact ⟨rfl, rfl⟩
  | cons a t ih =>
    have ha := h a (by simp)
    have ht : ∀ c ∈ t, c = 'A' ∨ c = 'T' ∨ c = 'G' ∨ c = 'C' := fun c hc => h c (by simp [hc])
    obtain ⟨ih1, ih2⟩ := ih ht
    rcases ha with rfl | rfl | rfl | rfl <;>
      simp [List.filterMap_cons, comp, List.filter_cons, ih1, ih2]

/-- Claim C10: `gcContent` is invariant under reverse complementation. -/
theorem gcContent_reverseComplement (s : List Char) :
    gcContent (reverseComplement s) = gcContent s := by
  have hmemrev : ∀ c ∈ (cleanSeq s).reverse, c = 'A' ∨ c = 'T' ∨ c = 'G' ∨ c = 'C' :=
    fun c hc => mem_cleanSeq (List.mem_reverse.mp hc)
  obtain ⟨hlen, hgc⟩ := filterMap_comp_counts hmemrev
  have hlen2 : (reverseComplement s).length = (cleanSeq s).length := by
    unfold reverseComplement
    rw [hlen, List.length_reverse]
  have hgc2 : ((reverseComplement s).filter fun n => n == 'G' || n == 'C').length =
      ((cleanSeq s).filter fun n => n == 'G' || n == 'C').length := by
    unfold reverseComplement
    rw [hgc, List.filter_reverse, List.length_reverse]
  simp only [gcContent, cleanSeq_reverseComplement, hlen2, hgc2]

/-- Claim C7: applying `reverseComplement` twice yields the cleaned sequence. -/
theorem reverseComplement_reverseComplement (s : List Char) :
    reverseComplement (reverseComplement s) = cleanSeq s := by
  conv_lhs => rw [reverseComplement]
  rw [cleanSeq_reverseComplement]
  conv_lhs => rw [reverseComplement]
  rw [filterMap_reverse, filterMap_reverse, filterMap_reverse, List.reverse_reverse]
  exact filterMap_comp_comp fun _ hc => mem_cleanSeq hc

/-- The fixed 64-entry codon table `CODON_TABLE`; a lookup off the table
(`CODON_TABLE[codon]`) is `undefined`, here `none`. -/
def CODON_TABLE : List Char → Option Char
  | ['T','T','T'] => some 'F' | ['T','T','C'] => some 'F'
  | ['T','T','A'] => some 'L' | ['T','T','G'] => some 'L'
  | ['C','T','T'] => some 'L' | ['C','T','C'] => some 'L'
  | ['C','T','A'] => some 'L' | ['C','T','G'] => some 'L'
  | ['A','T','T'] => some 'I' | ['A','T','C'] => some 'I'
  | ['A','T','A'] => some 'I' | ['A','T','G'] => some 'M'
  | ['G','T','T'] => some 'V' | ['G','T','C'] => some 'V'
  | ['G','T','A'] => some 'V' | ['G','T','G'] => some 'V'
  | ['T','C','T'] => some 'S' | ['T','C','C'] => some 'S'
  | ['T','C','A'] => some 'S' | ['T','C','G'] => some 'S'
  | ['C','C','T'] => some 'P' | ['C','C','C'] => some 'P'
  | ['C','C','A'] => some 'P' | ['C','C','G'] => some 'P'
  | ['A','C','T'] => some 'T' | ['A','C','C'] => some 'T'
  | ['A','C','A'] => some 'T' | ['A','C','G'] => some 'T'
  | ['G','C','T'] => some 'A' | ['G','C','C'] => some 'A'
  | ['G','C','A'] => some 'A' | ['G','C','G'] => some 'A'
  | ['T','A','T'] => some 'Y' | ['T','A','C'] => some 'Y'
  | ['T','A','A'] => some '*' | ['T','A','G'] => some '*'
  | ['C','A','T'] => some 'H' | ['C','A','C'] => some 'H'
  | ['C','A','A'] => some 'Q' | ['C','A','G'] => some 'Q'
  | ['A','A','T'] => some 'N' | ['A','A','C'] => some 'N'
  | ['A','A','A'] => some 'K' | ['A','A','G'] => some 'K'
  | ['G','A','T'] => some 'D' | ['G','A','C'] => some 'D'
  | ['G','A','A'] => some 'E' | ['G','A','G'] => some 'E'
  | ['T','G','T'] => some 'C' | ['T','G','C'] => some 'C'
  | ['T','G','A'] => some '*' | ['T','G','G'] => some 'W'
  | ['C','G','T'] => some 'R' | ['C','G','C'] => some 'R'
  | ['C','G','A'] => some 'R' | ['C','G','G'] => some 'R'
  | ['A','G','T'] => some 'S' | ['A','G','C'] => some 'S'
  | ['A','G','A'] => some 'R' | ['A','G','G'] => some 'R'
  | ['G','G','T'] => some 'G' | ['G','G','C'] => some 'G'
  | ['G','G','A'] => some 'G' | ['G','G','G'] => some 'G'
  | _ => none

/-- The amino-acid full-name table `AA_NAMES`. -/
def AA_NAMES : Char → Option String
  | 'A' => some "Alanine" | 'R' => some "Arginine" | 'N' => some "Asparagine"
  | 'D' => some "Aspartic acid" | 'C' => some "Cysteine" | 'E' => some "Glutamic acid"
  | 'Q' => some "Glutamine" | 'G' => some "Glycine" | 'H' => some "Histidine"
  | 'I' => some "Isoleucine" | 'L' => some "Leucine" | 'K' => some "Lysine"
  | 'M' => some "Methionine" | 'F' => some "Phenylalanine" | 'P' => some "Proline"
  | 'S' => some "Serine" | 'T' => some "Threonine" | 'W' => some "Tryptophan"
  | 'Y' => some "Tyrosine" | 'V' => some "Valine" | '*' => some "Stop"
  | _ => none

/-- The JavaScript line terminators, which `.` in a regex without the `s`
flag does not match. -/
def isLineTerminator (c : Char) : Bool :=
  c == '\n' || c == '\r' || c == '\u2028' || c == '\u2029'

/-- The chunking performed by `dna_seq.match(/.{1,3}/g)`: a global greedy
search for 1–3 consecutive non-line-terminator characters.  A line terminator
never enters a match, so a window cut short by one is emitted with fewer than
3 characters and the scan resynchronizes right after it. -/
def regexChunks : List Char → List (List Char)
  | [] => []
  | c1 :: rest1 =>
    if isLineTerminator c1 then regexChunks rest1
    else
      match rest1 with
      | [] => [[c1]]
      | c2 :: rest2 =>
        if isLineTerminator c2 then [c1] :: regexChunks (c2 :: rest2)
        else
          match rest2 with
          | [] => [[c1, c2]]
          | c3 :: rest3 =>
            if isLineTerminator c3 then [c1, c2] :: regexChunks (c3 :: rest3)
            else [c1, c2, c3] :: regexChunks rest3

/-- The codon loop of `translate`: skip windows that are not a full codon
(`codon.length !== 3` / `continue`), map each codon through `CODON_TABLE`
with fallback `"X"`, and break at the first stop codon without emitting the
`*`. -/
def translateCodons : List (List Char) → List Char
  | [] => []
  | codon :: rest =>
    if codon.length ≠ 3 then translateCodons rest
    else
      let aa := (CODON_TABLE codon).getD 'X'
      if aa = '*' then [] else aa :: translateCodons rest

/-- Embeds `translate`: chop the input with `match(/.{1,3}/g)` and run the
codon loop over the windows. -/
def translate (dna_seq : List Char) : List Char :=
  translateCodons (regexChunks dna_seq)

/-- Modelled from the spec (§4.4), the reading that claim C3 asserts of
`translate`: non-overlapping 3-symbol windows from position 0, any trailing
1–2 symbols ignored, truncation at the first stop codon, fallback `X` for a
window outside the table.  `translate` agrees with this on inputs free of
line terminators (`translate_eq_translateSpec`) but not in general, because
the regex `.{1,3}` skips line terminators and resynchronizes after them. -/
def translateSpec : List Char → List Char
  | c1 :: c2 :: c3 :: rest =>
    let aa := (CODON_TABLE [c1, c2, c3]).getD 'X'
    if aa = '*' then [] else aa :: translateSpec rest
  | _ => []

/-- The three stop codons, `["TAA", "TAG", "TGA"]`. -/
def stopCodons : List (List Char) := [['T','A','A'], ['T','A','G'], ['T','G','A']]

/-- `stopCodons.includes(c)`. -/
def isStopCodon (c : List Char) : Bool := stopCodons.contains c

/-- The codon loop never emits the stop symbol. -/
theorem star_not_mem_translateCodons : ∀ cs : List (List Char), '*' ∉ translateCodons cs := by
  intro cs
  induction cs with
  | nil => simp [translateCodons]
  | cons codon rest ih =>
    by_cases hlen : codon.length ≠ 3
    · simp only [translateCodons, if_pos hlen]
      exact ih
    · simp only [translateCodons, if_neg hlen]
      by_cases hstar : (CODON_TABLE codon).getD 'X' = '*'
      · simp only [if_pos hstar]
        exact List.not_mem_nil '*'
      · simp only [if_neg hstar, List.mem_cons, not_or]
        exact ⟨fun h => hstar h.symm, ih⟩

/-- `translate` never emits the stop symbol, on any input. -/
theorem star_not_mem_translate : ∀ l : List Char, '*' ∉ translate l :=
  fun l => star_not_mem_translateCodons (regexChunks l)

/-- On a line-terminator-free input, the regex windows are exact 3-symbol
windows from position 0 and `translate` coincides with the windowed reading
`translateSpec`. -/
theorem translate_eq_translateSpec : ∀ l : List Char,
    (∀ c ∈ l, isLineTerminator c = false) → translate l = translateSpec l := by
  intro l
  induction l using translateSpec.induct with
  | case1 c1 c2 c3 rest aa hstar =>
    intro hnt
    show translateCodons (regexChunks (c1 :: c2 :: c3 :: rest)) = _
    rw [regexChunks]
    simp only [hnt c1 (by simp), hnt c2 (by simp), hnt c3 (by simp), Bool.false_eq_true,
      if_false]
    simp only [translateCodons, translateSpec, List.length_cons, List.length_nil]
    rw [if_neg (by omega), if_pos hstar, if_pos hstar]
  | case2 c1 c2 c3 rest aa hstar ih =>
    intro hnt
    show translateCodons (regexChunks (c1 :: c2 :: c3 :: rest)) = _
    rw [regexChunks]
    simp only [hnt c1 (by simp), hnt c2 (by simp), hnt c3 (by simp), Bool.false_eq_true,
      if_false]
    simp only [translateCodons, translateSpec, List.length_cons, List.length_nil]
    rw [if_neg (by omega), if_neg hstar, if_neg hstar]
    exact congrArg _ (ih fun c hc => hnt c (by simp [hc]))
  | case3 t ht =>
    intro hnt
    cases t with
    | nil => rfl
    | cons a t1 =>
      cases t1 with
      | nil =>
        show translateCodons (regexChunks [a]) = _
        rw [regexChunks]
        simp only [hnt a (by simp), Bool.false_eq_true, if_false]
        rfl
      | cons b t2 =>
        cases t2 with
        | nil =>
          show translateCodons (regexChunks [a, b]) = _
          rw [regexChunks]
          simp only [hnt a (by simp), hnt b (by simp), Bool.false_eq_true, if_false]
          rfl
        | cons c t3 => exact absurd rfl (ht a b c t3)

/-- Trailing characters that do not form a full codon never affect the
windowed reading. -/
theorem translateSpec_take_aligned : ∀ l : List Char,
    translateSpec l = translateSpec (l.take (l.length - l.length % 3)) := by
  intro l
  induction l using translateSpec.induct with
  | case1 c1 c2 c3 rest aa hstar =>
    have h1 : (c1 :: c2 :: c3 :: rest).length - (c1 :: c2 :: c3 :: rest).length % 3 =
        (rest.length - rest.length % 3) + 3 := by
      simp only [List.length_cons]
      omega
    rw [h1]
    show translateSpec _ =
      translateSpec (c1 :: c2 :: c3 :: rest.take (rest.length - rest.length % 3))
    simp only [translateSpec, if_pos hstar]
  | case2 c1 c2 c3 rest aa hstar ih =>
    have h1 : (c1 :: c2 :: c3 :: rest).length - (c1 :: c2 :: c3 :: rest).length % 3 =
        (rest.length - rest.length % 3) + 3 := by
      simp only [List.length_cons]
      omega
    rw [h1]
    show translateSpec _ =
      translateSpec (c1 :: c2 :: c3 :: rest.take (rest.length - rest.length % 3))
    simp only [translateSpec, if_neg hstar]
    exact congrArg _ ih
  | case3 t ht =>
    cases t with
    | nil => rfl
    | cons a t1 =>
      cases t1 with
      | nil => rfl
      | cons b t2 =>
        cases t2 with
        | nil => rfl
        | cons c t3 => exact absurd rfl (ht a b c t3)

/-- A codon-aligned prefix decides the windowed reading: at the first
in-frame stop codon it truncates, whatever follows. -/
theorem translateSpec_append_stop : ∀ a s b : List Char,
    a.length % 3 = 0 → isStopCodon s = true →
      translateSpec (a ++ s ++ b) = translateSpec a := by
  intro a
  induction a using translateSpec.induct with
  | case1 c1 c2 c3 rest aa hstar =>
    intro s b _ _
    show translateSpec (c1 :: c2 :: c3 :: (rest ++ s ++ b)) = _
    simp only [translateSpec, if_pos hstar]
  | case2 c1 c2 c3 rest aa hstar ih =>
    intro s b hlen hs
    have hrest : rest.length % 3 = 0 := by
      simp only [List.length_cons] at hlen
      omega
    show translateSpec (c1 :: c2 :: c3 :: (rest ++ s ++ b)) = _
    simp only [translateSpec, if_neg hstar]
    exact congrArg _ (ih s b hrest hs)
  | case3 t ht =>
    intro s b hlen hs
    have hmem : s ∈ stopCodons := by
      have := hs
      simp only [isStopCodon, List.contains_iff_exists_mem_beq, beq_iff_eq] at this
      obtain ⟨x, hx, rfl⟩ := this
      exact hx
    cases t with
    | nil =>
      simp only [stopCodons, List.mem_cons, List.not_mem_nil, or_false] at hmem
      rcases hmem with rfl | rfl | rfl <;> rfl
    | cons a t1 =>
      cases t1 with
      | nil => simp at hlen
      | cons b2 t2 =>
        cases t2 with
        | nil => simp at hlen
        | cons c t3 => exact absurd rfl (ht a b2 c t3)

/-- Stop codons contain no line terminators. -/
theorem stopCodon_no_term {s : List Char} (hs : isStopCodon s = true) :
    ∀ c ∈ s, isLineTerminator c = false := by
  have hmem : s ∈ stopCodons := by
    simp only [isStopCodon, List.contains_iff_exists_mem_beq, beq_iff_eq] at hs
    obtain ⟨x, hx, rfl⟩ := hs
    exact hx
  simp only [stopCodons, List.mem_cons, List.not_mem_nil, or_false] at hmem
  rcases hmem with rfl | rfl | rfl <;> decide

/-- Counterexample to C3 as stated: `translate` does not read exact 3-symbol
windows from position 0 on every input string.  The regex `.{1,3}` skips line
terminators, so on `"\nATG"` the code translates the resynchronized window
`ATG` to `M`, while the windowed reading the claim describes yields `X` for
the window `\nAT` and drops the trailing `G`. -/
theorem translate_newline_counterexample :
    translate "\nATG".toList = ['M'] ∧ translateSpec "\nATG".toList = ['X'] ∧
      translate "\nATG".toList ≠ translateSpec "\nATG".toList :=
  ⟨by decide, by decide, by decide⟩

/-- Claim C3 as amended: on every input free of JS line terminators — in
particular every cleaned sequence — `translate` reads non-overlapping
3-symbol windows from position 0 (it equals the windowed reading
`translateSpec`), ignores trailing symbols that do not form a full codon, and
stops at the first in-frame stop codon; the stop symbol is never emitted, on
any input whatsoever; and `translate("ATGAAATAAGGG") = "MK"`. -/
theorem translate_spec_amended :
    (∀ l : List Char, (∀ c ∈ l, isLineTerminator c = false) →
        translate l = translateSpec l)
    ∧ (∀ a s b : List Char, (∀ c ∈ a, isLineTerminator c = false) →
        (∀ c ∈ b, isLineTerminator c = false) →
        a.length % 3 = 0 → isStopCodon s = true →
        translate (a ++ s ++ b) = translate a)
    ∧ (∀ l : List Char, (∀ c ∈ l, isLineTerminator c = false) →
        translate l = translate (l.take (l.length - l.length % 3)))
    ∧ (∀ l : List Char, '*' ∉ translate l)
    ∧ translate "ATGAAATAAGGG".toList = "MK".toList := by
  refine ⟨translate_eq_translateSpec, ?_, ?_, star_not_mem_translate, by decide⟩
  · intro a s b hna hnb hlen hs
    have hnall : ∀ c ∈ a ++ s ++ b, isLineTerminator c = false := by
      intro c hc
      rcases List.mem_append.mp hc with hc' | hc'
      · rcases List.mem_append.mp hc' with hc'' | hc''
        · exact hna c hc''
        · exact stopCodon_no_term hs c hc''
      · exact hnb c hc'
    rw [translate_eq_translateSpec _ hnall, translate_eq_translateSpec _ hna]
    exact translateSpec_append_stop a s b hlen hs
  · intro l hnl
    have hnt : ∀ c ∈ l.take (l.length - l.length % 3), isLineTerminator c = false :=
      fun c hc => hnl c (List.take_subset _ _ hc)
    rw [translate_eq_translateSpec _ hnl, translate_eq_translateSpec _ hnt]
    exact translateSpec_take_aligned l

/-- Witness for the amended C3 at concrete inputs. -/
theorem translate_spec_amended_witness :
    ((∀ c ∈ (['A','T','G'] : List Char), isLineTerminator c = false) ∧
        (∀ c ∈ (['G','G','G'] : List Char), isLineTerminator c = false) ∧
        (['A','T','G'] : List Char).length % 3 = 0 ∧ isStopCodon ['T','A','A'] = true ∧
        translate (['A','T','G'] ++ ['T','A','A'] ++ ['G','G','G']) = translate ['A','T','G'])
    ∧ translate "ATGAAATAAGGG".toList = "MK".toList :=
  ⟨⟨by decide, by decide, by decide, by decide,
      translate_spec_amended.2.1 ['A','T','G'] ['T','A','A'] ['G','G','G']
        (by decide) (by decide) (by decide) (by decide)⟩,
    translate_spec_amended.2.2.2.2⟩

/-- Rounding to one decimal place: models `Number(x.toFixed(1))` on the
nonnegative values the melting-temperature formulas produce. -/
noncomputable def round1 (x : ℝ) : ℝ := (round (x * 10) : ℤ) / 10

/-- Embeds `meltingTemp`: Wallace rule below 14 nucleotides, the salt-adjusted
formula with denominator 675 for lengths 14–70, and the same formula with
denominator 600 above 70; `Math.log10` is real base-10 logarithm. -/
noncomputable def meltingTemp (seq : List Char) : ℝ :=
  let s := cleanSeq seq
  let length := s.length
  if length = 0 then 0
  else
    let a := s.count 'A'
    let t := s.count 'T'
    let g := s.count 'G'
    let c := s.count 'C'
    if length < 14 then (2 * (a + t) + 4 * (g + c) : ℕ)
    else
      let saltCorrection : ℝ := 16.6 * Real.logb 10 0.05
      if length ≤ 70 then
        round1 (81.5 + saltCorrection + 0.41 * (gcContent s : ℝ) - 675 / length)
      else
        round1 (81.5 + saltCorrection + 0.41 * (gcContent s : ℝ) - 600 / length)

/-- `gcContent` only depends on the cleaned sequence. -/
theorem gcContent_cleanSeq (s : List Char) : gcContent (cleanSeq s) = gcContent s := by
  simp only [gcContent, cleanSeq_idem]

/-- Claim C4: `meltingTemp` is 0 on the empty cleaned sequence, the Wallace
rule integer `2*(A+T) + 4*(G+C)` below length 14, the salt-adjusted formula
`81.5 + 16.6*log10(0.05) + 0.41*GC% - 675/length` rounded to one decimal for
lengths 14–70, and the same formula with constant 600 above length 70. -/
theorem meltingTemp_spec (seq : List Char) :
    ((cleanSeq seq).length = 0 → meltingTemp seq = 0)
    ∧ (0 < (cleanSeq seq).length → (cleanSeq seq).length < 14 →
        meltingTemp seq = ((2 * ((cleanSeq seq).count 'A' + (cleanSeq seq).count 'T') +
          4 * ((cleanSeq seq).count 'G' + (cleanSeq seq).count 'C') : ℕ) : ℝ))
    ∧ (14 ≤ (cleanSeq seq).length → (cleanSeq seq).length ≤ 70 →
        meltingTemp seq = round1 (81.5 + 16.6 * Real.logb 10 0.05 +
          0.41 * (gcContent seq : ℝ) - 675 / (cleanSeq seq).length))
    ∧ (70 < (cleanSeq seq).length →
        meltingTemp seq = round1 (81.5 + 16.6 * Real.logb 10 0.05 +
          0.41 * (gcContent seq : ℝ) - 600 / (cleanSeq seq).length)) := by
  refine ⟨fun h0 => ?_, fun hpos hlt => ?_, fun h14 h70 => ?_, fun h70 => ?_⟩ <;>
    simp only [meltingTemp, gcContent_cleanSeq]
  · rw [if_pos h0]
  · rw [if_neg (by omega), if_pos hlt]
  · rw [if_neg (by omega), if_neg (by omega), if_pos h70]
  · rw [if_neg (by omega), if_neg (by omega), if_neg (by omega)]

/-- Witness for C4: a 20-nucleotide input lands in the 14–70 bracket. -/
theorem meltingTemp_spec_witness :
    14 ≤ (cleanSeq (List.replicate 20 'A')).length ∧
      (cleanSeq (List.replicate 20 'A')).length ≤ 70 ∧
      meltingTemp (List.replicate 20 'A') = round1 (81.5 + 16.6 * Real.logb 10 0.05 +
        0.41 * (gcContent (List.replicate 20 'A') : ℝ) -
          675 / (cleanSeq (List.replicate 20 'A')).length) :=
  ⟨by decide, by decide,
    (meltingTemp_spec (List.replicate 20 'A')).2.2.1 (by decide) (by decide)⟩

/-- `dna.substring(a, b)` for `a ≤ b`. -/
def listSlice (l : List Char) (a b : Nat) : List Char := (l.drop a).take (b - a)

/-- One ORF record as pushed by `findORFs`. -/
structure ORF where
  frame : Int
  start : Nat
  «end» : Nat
  length_nt : Nat
  dna_seq : List Char
  aa_seq : List Char
  type : String
deriving DecidableEq

/-- The inner stop-codon search relative to a suffix of the strand: returns
the offset of the first codon-aligned stop codon, scanning three characters
at a time, or `none` if the suffix ends first. -/
def findStopOff : List Char → Option Nat
  | c1 :: c2 :: c3 :: rest =>
    if isStopCodon [c1, c2, c3] then some 0
    else (findStopOff rest).map (· + 3)
  | _ => none

/-- The inner `while (j <= dna.length - 3)` loop of `findORFs`: first
codon-aligned stop codon at or after position `j`. -/
def findStop (dna : List Char) (j : Nat) : Option Nat :=
  (findStopOff (dna.drop j)).map (j + ·)

/-- What a successful stop search guarantees. -/
theorem findStopOff_some {l : List Char} {k : Nat} (h : findStopOff l = some k) :
    k % 3 = 0 ∧ k + 3 ≤ l.length ∧ isStopCodon (listSlice l k (k + 3)) = true := by
  induction l using findStopOff.induct generalizing k with
  | case1 c1 c2 c3 rest hstop =>
    rw [findStopOff, if_pos hstop] at h
    cases h
    exact ⟨rfl, by simp, by simpa [listSlice] using hstop⟩
  | case2 c1 c2 c3 rest hstop ih =>
    rw [findStopOff, if_neg hstop] at h
    obtain ⟨k', hk', rfl⟩ := Option.map_eq_some'.mp h
    obtain ⟨h1, h2, h3⟩ := ih hk'
    refine ⟨by omega, by simp only [List.length_cons]; omega, ?_⟩
    simpa [listSlice, List.drop_succ_cons] using h3
  | case3 t ht =>
    cases t with
    | nil => simp [findStopOff] at h
    | cons a t1 =>
      cases t1 with
      | nil => simp [findStopOff] at h
      | cons b t2 =>
        cases t2 with
        | nil => simp [findStopOff] at h
        | cons c t3 => exact absurd rfl (ht a b c t3)

/-- What `findStop dna j0 = some j` guarantees: `j` is codon-aligned relative
to `j0`, lies at least at `j0`, fits in the strand, and carries a stop codon. -/
theorem findStop_some {dna : List Char} {j0 j : Nat} (h : findStop dna j0 = some j) :
    j0 ≤ j ∧ (j - j0) % 3 = 0 ∧ j + 3 ≤ dna.length ∧
      isStopCodon (listSlice dna j (j + 3)) = true := by
  obtain ⟨k, hk, rfl⟩ := Option.map_eq_some'.mp h
  obtain ⟨h1, h2, h3⟩ := findStopOff_some hk
  have hlen : (dna.drop j0).length = dna.length - j0 := List.length_drop j0 dna
  have hslice : listSlice (dna.drop j0) k (k + 3) = listSlice dna (j0 + k) (j0 + k + 3) := by
    simp [listSlice, List.drop_drop, Nat.add_comm]
  refine ⟨by omega, by omega, by omega, ?_⟩
  rw [hslice] at h3
  exact h3

/-- Builds the ORF record pushed by `findORFs` (`frame` is signed by strand). -/
def mkORF (strand : Bool) (frameNum : Nat) (startPos endPos : Nat)
    (dseq aseq : List Char) (ty : String) : ORF :=
  { frame := if strand then (frameNum : Int) else -(frameNum : Int),
    start := startPos, «end» := endPos, length_nt := dseq.length,
    dna_seq := dseq, aa_seq := aseq, type := ty }

/-- The outer `while (i <= dna.length - 3)` scan of one strand/frame
combination, with explicit fuel (each iteration advances `i`, so
`dna.length + 1` iterations always suffice; see `scanFrameGo_fuel`).
Mirrors `findORFs`: at a codon-aligned `ATG`, search for the first in-frame
stop codon; on success record a complete ORF over `[i, j+3)` when it
translates to at least 1 amino acid and resume at `j+3`; with no stop codon,
record a partial ORF up to the codon-aligned boundary when it translates to
at least 10 amino acids and resume there; otherwise step by 3. -/
def scanFrameGo (dna : List Char) (strand : Bool) (frameNum : Nat) :
    Nat → Nat → List ORF
  | 0, _ => []
  | fuel + 1, i =>
    if i + 3 ≤ dna.length then
      if listSlice dna i (i + 3) = ['A', 'T', 'G'] then
        match findStop dna (i + 3) with
        | some j =>
          let dseq := listSlice dna i (j + 3)
          let aseq := translate dseq
          let rest := scanFrameGo dna strand frameNum fuel (j + 3)
          if 1 ≤ aseq.length then
            mkORF strand frameNum (i + 1) (j + 3) dseq aseq "Complete (with stop codon)" :: rest
          else rest
        | none =>
          let alignedEnd := dna.length - (dna.length - i) % 3
          let dseq := listSlice dna i alignedEnd
          let aseq := translate dseq
          let rest := scanFrameGo dna strand frameNum fuel alignedEnd
          if 10 ≤ aseq.length then
            mkORF strand frameNum (i + 1) alignedEnd dseq aseq "Partial (no stop codon)" :: rest
          else rest
      else scanFrameGo dna strand frameNum fuel (i + 3)
    else []

/-- One strand/frame combination of the `findORFs` scan. -/
def scanFrame (dna : List Char) (strand : Bool) (frameNum : Nat) (start : Nat) : List ORF :=
  scanFrameGo dna strand frameNum (dna.length + 1) start

/-- The `for (let frame = 0; frame < 3; frame++)` loop over one strand. -/
def scanStrand (dna : List Char) (strand : Bool) : List ORF :=
  scanFrame dna strand 1 0 ++ scanFrame dna strand 2 1 ++ scanFrame dna strand 3 2

/-- Comparator order of `orfs.sort((a, b) => b.length_nt - a.length_nt)`. -/
def orfGE (a b : ORF) : Prop := b.length_nt ≤ a.length_nt

instance : DecidableRel orfGE := fun a b => Nat.decLe b.length_nt a.length_nt

/-- Embeds `findORFs`: scan both strands over the three frame offsets and
sort the records by descending nucleotide length (the JS runtime sort is
modelled as insertion sort; the order among equal lengths is unspecified). -/
def findORFs (seq : List Char) : List ORF :=
  let cleaned := cleanSeq seq
  let revcomp := reverseComplement cleaned
  List.insertionSort orfGE (scanStrand cleaned true ++ scanStrand revcomp false)

/-- Embeds `longestORF`: head of the sorted ORF list, if any. -/
def longestORF (seq : List Char) : Option ORF :=
  (findORFs seq).head?

/-- One-step unfolding of the scan loop. -/
theorem scanFrameGo_succ_eq (dna : List Char) (strand : Bool) (fn fuel i : Nat) :
    scanFrameGo dna strand fn (fuel + 1) i =
      if i + 3 ≤ dna.length then
        if listSlice dna i (i + 3) = ['A', 'T', 'G'] then
          match findStop dna (i + 3) with
          | some j =>
            if 1 ≤ (translate (listSlice dna i (j + 3))).length then
              mkORF strand fn (i + 1) (j + 3) (listSlice dna i (j + 3))
                  (translate (listSlice dna i (j + 3))) "Complete (with stop codon)" ::
                scanFrameGo dna strand fn fuel (j + 3)
            else scanFrameGo dna strand fn fuel (j + 3)
          | none =>
            if 10 ≤ (translate (listSlice dna i (dna.length - (dna.length - i) % 3))).length then
              mkORF strand fn (i + 1) (dna.length - (dna.length - i) % 3)
                  (listSlice dna i (dna.length - (dna.length - i) % 3))
                  (translate (listSlice dna i (dna.length - (dna.length - i) % 3)))
                  "Partial (no stop codon)" ::
                scanFrameGo dna strand fn fuel (dna.length - (dna.length - i) % 3)
            else scanFrameGo dna strand fn fuel (dna.length - (dna.length - i) % 3)
        else scanFrameGo dna strand fn fuel (i + 3)
      else [] := rfl

/-- Each scan iteration advances the position, so any fuel of at least
`dna.length + 1 - i` computes the full scan: one more unit changes nothing. -/
theorem scanFrameGo_succ (dna : List Char) (strand : Bool) (fn : Nat) :
    ∀ fuel i, dna.length + 1 - i ≤ fuel →
      scanFrameGo dna strand fn (fuel + 1) i = scanFrameGo dna strand fn fuel i := by
  intro fuel
  induction fuel with
  | zero =>
    intro i hi
    have h3 : ¬(i + 3 ≤ dna.length) := by omega
    rw [scanFrameGo_succ_eq, if_neg h3]
    rfl
  | succ fuel ih =>
    intro i hi
    conv_lhs => rw [scanFrameGo_succ_eq]
    conv_rhs => rw [scanFrameGo_succ_eq]
    by_cases h3 : i + 3 ≤ dna.length
    · by_cases hatg : listSlice dna i (i + 3) = ['A', 'T', 'G']
      · rcases hfs : findStop dna (i + 3) with _ | j
        · have hm : (dna.length - i) % 3 < 3 := Nat.mod_lt _ (by norm_num)
          simp only [if_pos h3, if_pos hatg, hfs]
          rw [ih (dna.length - (dna.length - i) % 3) (by omega)]
        · obtain ⟨hj, -, -, -⟩ := findStop_some hfs
          simp only [if_pos h3, if_pos hatg, hfs]
          rw [ih (j + 3) (by omega)]
      · simp only [if_pos h3, if_neg hatg]
        exact ih (i + 3) (by omega)
    · simp only [if_neg h3]

/-- Adding fuel beyond the sufficient amount changes nothing. -/
theorem scanFrameGo_add (dna : List Char) (strand : Bool) (fn : Nat) :
    ∀ k fuel i, dna.length + 1 - i ≤ fuel →
      scanFrameGo dna strand fn (fuel + k) i = scanFrameGo dna strand fn fuel i := by
  intro k
  induction k with
  | zero => intro fuel i _; rfl
  | succ k ihk =>
    intro fuel i hi
    have he : fuel + (k + 1) = (fuel + k) + 1 := rfl
    rw [he, scanFrameGo_succ dna strand fn (fuel + k) i (by omega), ihk fuel i hi]

/-- Any sufficient fuel computes `scanFrame`. -/
theorem scanFrameGo_eq_scanFrame (dna : List Char) (strand : Bool) (fn : Nat)
    {fuel i : Nat} (h : dna.length + 1 - i ≤ fuel) :
    scanFrameGo dna strand fn fuel i = scanFrame dna strand fn i := by
  unfold scanFrame
  rcases le_total fuel (dna.length + 1) with hle | hle
  · obtain ⟨k, hk⟩ : ∃ k, dna.length + 1 = fuel + k := ⟨dna.length + 1 - fuel, by omega⟩
    rw [hk, scanFrameGo_add dna strand fn k fuel i h]
  · obtain ⟨k, hk⟩ : ∃ k, fuel = (dna.length + 1) + k := ⟨fuel - (dna.length + 1), by omega⟩
    rw [hk, scanFrameGo_add dna strand fn k (dna.length + 1) i (by omega)]

/-- A slice of three characters witnesses that it fits in the list. -/
theorem listSlice_three_le {dna : List Char} {i : Nat}
    (h : listSlice dna i (i + 3) = ['A', 'T', 'G']) : i + 3 ≤ dna.length := by
  have := congrArg List.length h
  simp only [listSlice, List.length_take, List.length_drop, List.length_cons,
    List.length_nil] at this
  omega

/-- The ATG start codon heads the recorded subsequence. -/
theorem listSlice_take_start {dna : List Char} {i j : Nat}
    (hatg : listSlice dna i (i + 3) = ['A', 'T', 'G']) (hij : i + 3 ≤ j + 3) :
    (listSlice dna i (j + 3)).take 3 = ['A', 'T', 'G'] := by
  simp only [listSlice] at hatg ⊢
  rw [List.take_take]
  have hm : min 3 (j + 3 - i) = 3 := by omega
  rw [hm]
  simpa using hatg

/-- Claim C1: at a codon-aligned start codon `ATG` at position `i` whose
first in-frame stop codon sits at `j`, the scan records one complete ORF
with 1-based start `i+1`, end `j+3`, nucleotide span `[i, j+3)` (stop codon
included), nucleotide length `end − start + 1`, the stop symbol absent from
the translated string, and resumes at `j+3`. -/
theorem findORFs_complete_step (dna : List Char) (strand : Bool) (fn i j : Nat)
    (hatg : listSlice dna i (i + 3) = ['A', 'T', 'G'])
    (hstop : findStop dna (i + 3) = some j) :
    scanFrame dna strand fn i =
      mkORF strand fn (i + 1) (j + 3) (listSlice dna i (j + 3))
          (translate (listSlice dna i (j + 3))) "Complete (with stop codon)" ::
        scanFrame dna strand fn (j + 3)
    ∧ (listSlice dna i (j + 3)).length = (j + 3) - (i + 1) + 1
    ∧ isStopCodon (listSlice dna j (j + 3)) = true
    ∧ (listSlice dna i (j + 3)).drop (j - i) = listSlice dna j (j + 3)
    ∧ '*' ∉ translate (listSlice dna i (j + 3)) := by
  have h3 : i + 3 ≤ dna.length := listSlice_three_le hatg
  obtain ⟨hj, hmod, hjlen, hstopc⟩ := findStop_some hstop
  have htake : (listSlice dna i (j + 3)).take 3 = ['A', 'T', 'G'] :=
    listSlice_take_start hatg (by omega)
  have htr : translate (listSlice dna i (j + 3)) =
      'M' :: translate ((listSlice dna i (j + 3)).drop 3) := by
    conv_lhs => rw [← List.take_append_drop 3 (listSlice dna i (j + 3)), htake]
    rfl
  have haa : 1 ≤ (translate (listSlice dna i (j + 3))).length := by
    rw [htr]; simp
  refine ⟨?_, ?_, hstopc, ?_, star_not_mem_translate _⟩
  · conv_lhs => rw [scanFrame, scanFrameGo_succ_eq]
    simp only [if_pos h3, if_pos hatg, hstop, if_pos haa]
    rw [scanFrameGo_eq_scanFrame dna strand fn (by omega)]
  · simp only [listSlice, List.length_take, List.length_drop]
    omega
  · simp only [listSlice, List.drop_take, List.drop_drop]
    have h1 : i + (j - i) = j := by omega
    have h2 : j + 3 - i - (j - i) = 3 := by omega
    have h3' : j + 3 - j = 3 := by omega
    rw [h1, h2, h3']

/-- Witness for C1: `ATGAAATAA` carries its start codon at 0 and first
in-frame stop codon at 6. -/
theorem findORFs_complete_step_witness :
    (listSlice "ATGAAATAA".toList 0 3 = ['A', 'T', 'G'] ∧
        findStop "ATGAAATAA".toList 3 = some 6) ∧
      (scanFrame "ATGAAATAA".toList true 1 0 =
        mkORF true 1 1 9 (listSlice "ATGAAATAA".toList 0 9)
            (translate (listSlice "ATGAAATAA".toList 0 9)) "Complete (with stop codon)" ::
          scanFrame "ATGAAATAA".toList true 1 9) :=
  ⟨⟨by decide, by decide⟩,
    (findORFs_complete_step "ATGAAATAA".toList true 1 0 6 (by decide) (by decide)).1⟩

/-- Invariant of every record produced by one strand/frame scan: the fields
are internally consistent, the frame is signed by the strand, and the two
minimum-length policies hold for the two completeness tags. -/
theorem scanFrameGo_inv (dna : List Char) (strand : Bool) (fn : Nat) :
    ∀ fuel i r, r ∈ scanFrameGo dna strand fn fuel i →
      r.frame = (if strand then (fn : Int) else -(fn : Int))
      ∧ 1 ≤ r.start ∧ r.«end» ≤ dna.length
      ∧ r.dna_seq = listSlice dna (r.start - 1) r.«end»
      ∧ r.length_nt = r.dna_seq.length
      ∧ r.length_nt = r.«end» - r.start + 1
      ∧ r.length_nt % 3 = 0
      ∧ r.aa_seq = translate r.dna_seq
      ∧ (r.type = "Complete (with stop codon)" ∨ r.type = "Partial (no stop codon)")
      ∧ (r.type = "Complete (with stop codon)" → 1 ≤ r.aa_seq.length)
      ∧ (r.type = "Partial (no stop codon)" → 10 ≤ r.aa_seq.length) := by
  intro fuel
  induction fuel with
  | zero => intro i r hr; simp [scanFrameGo] at hr
  | succ fuel ih =>
    intro i r hr
    rw [scanFrameGo_succ_eq] at hr
    by_cases h3 : i + 3 ≤ dna.length
    · rw [if_pos h3] at hr
      by_cases hatg : listSlice dna i (i + 3) = ['A', 'T', 'G']
      · rw [if_pos hatg] at hr
        rcases hfs : findStop dna (i + 3) with _ | j <;> simp only [hfs] at hr
        · have hm : (dna.length - i) % 3 < 3 := Nat.mod_lt _ (by norm_num)
          by_cases hpush : 10 ≤ (translate (listSlice dna i
              (dna.length - (dna.length - i) % 3))).length
          · rw [if_pos hpush] at hr
            rcases List.mem_cons.mp hr with rfl | hr'
            · refine ⟨by simp [mkORF], by simp [mkORF], by simp only [mkORF]; omega,
                by simp [mkORF], rfl, ?_, ?_, rfl, Or.inr rfl, ?_, fun _ => hpush⟩
              · simp only [mkORF, listSlice, List.length_take, List.length_drop]
                omega
              · simp only [mkORF, listSlice, List.length_take, List.length_drop]
                omega
              · intro habs
                simp [mkORF] at habs
            · exact ih _ r hr'
          · rw [if_neg hpush] at hr
            exact ih _ r hr
        · obtain ⟨hj, hmod, hjlen, -⟩ := findStop_some hfs
          by_cases hpush : 1 ≤ (translate (listSlice dna i (j + 3))).length
          · rw [if_pos hpush] at hr
            rcases List.mem_cons.mp hr with rfl | hr'
            · refine ⟨by simp [mkORF], by simp [mkORF], by simp only [mkORF]; omega,
                by simp [mkORF], rfl, ?_, ?_, rfl, Or.inl rfl, fun _ => hpush, ?_⟩
              · simp only [mkORF, listSlice, List.length_take, List.length_drop]
                omega
              · simp only [mkORF, listSlice, List.length_take, List.length_drop]
                omega
              · intro habs
                simp [mkORF] at habs
            · exact ih _ r hr'
          · rw [if_neg hpush] at hr
            exact ih _ r hr
      · rw [if_neg hatg] at hr
        exact ih _ r hr
    · rw [if_neg h3] at hr
      simp at hr

/-- Records of `findORFs` all come from one of the six strand/frame scans. -/
theorem mem_findORFs {seq : List Char} {r : ORF} (hr : r ∈ findORFs seq) :
    (∃ fn ∈ ([1, 2, 3] : List Nat), r ∈ scanFrame (cleanSeq seq) true fn (fn - 1)) ∨
      (∃ fn ∈ ([1, 2, 3] : List Nat),
        r ∈ scanFrame (reverseComplement (cleanSeq seq)) false fn (fn - 1)) := by
  simp only [findORFs] at hr
  rw [List.mem_insertionSort] at hr
  rcases List.mem_append.mp hr with h | h
  · left
    unfold scanStrand at h
    rcases List.mem_append.mp h with h' | h'
    · rcases List.mem_append.mp h' with h'' | h''
      · exact ⟨1, by simp, by exact h''⟩
      · exact ⟨2, by simp, by exact h''⟩
    · exact ⟨3, by simp, by exact h'⟩
  · right
    unfold scanStrand at h
    rcases List.mem_append.mp h with h' | h'
    · rcases List.mem_append.mp h' with h'' | h''
      · exact ⟨1, by simp, by exact h''⟩
      · exact ⟨2, by simp, by exact h''⟩
    · exact ⟨3, by simp, by exact h'⟩

/-- Claim C2: every record returned by `findORFs` satisfies the minimum-length
policy: complete records translate to at least 1 amino acid, partial records
to at least 10, and no other completeness tag occurs. -/
theorem findORFs_min_length (seq : List Char) (r : ORF) (hr : r ∈ findORFs seq) :
    (r.type = "Complete (with stop codon)" ∨ r.type = "Partial (no stop codon)")
    ∧ (r.type = "Complete (with stop codon)" → 1 ≤ r.aa_seq.length)
    ∧ (r.type = "Partial (no stop codon)" → 10 ≤ r.aa_seq.length) := by
  rcases mem_findORFs hr with ⟨fn, -, h⟩ | ⟨fn, -, h⟩ <;>
    obtain ⟨-, -, -, -, -, -, -, -, h9, h10, h11⟩ := scanFrameGo_inv _ _ _ _ _ r h <;>
    exact ⟨h9, h10, h11⟩

/-- The single ORF record that `findORFs` returns on `ATGAAATAA`. -/
def orfExample : ORF :=
  { frame := 1, start := 1, «end» := 9, length_nt := 9,
    dna_seq := "ATGAAATAA".toList, aa_seq := ['M', 'K'],
    type := "Complete (with stop codon)" }

/-- Witness for C2: the single ORF of `ATGAAATAA`. -/
theorem findORFs_min_length_witness :
    orfExample ∈ findORFs "ATGAAATAA".toList
    ∧ (orfExample.type = "Complete (with stop codon)" → 1 ≤ orfExample.aa_seq.length) :=
  ⟨by decide, (findORFs_min_length "ATGAAATAA".toList orfExample (by decide)).2.1⟩

/-- Claim C9: every record returned by `findORFs` is internally consistent:
`length_nt` equals both the recorded subsequence length and `end − start + 1`,
is a multiple of 3, the subsequence is the slice of the scanned strand from
0-based `start − 1` to `end`, and the frame is `±1, ±2, ±3` with a positive
sign exactly for the forward strand. -/
theorem findORFs_record_consistent (seq : List Char) (r : ORF) (hr : r ∈ findORFs seq) :
    r.length_nt = r.dna_seq.length
    ∧ r.length_nt = r.«end» - r.start + 1
    ∧ r.length_nt % 3 = 0
    ∧ ((r.frame = 1 ∨ r.frame = 2 ∨ r.frame = 3) ∧
        r.dna_seq = listSlice (cleanSeq seq) (r.start - 1) r.«end»
      ∨ (r.frame = -1 ∨ r.frame = -2 ∨ r.frame = -3) ∧
        r.dna_seq = listSlice (reverseComplement (cleanSeq seq)) (r.start - 1) r.«end») := by
  rcases mem_findORFs hr with ⟨fn, hfn, h⟩ | ⟨fn, hfn, h⟩ <;>
    obtain ⟨h1, -, -, h4, h5, h6, h7, -, -, -, -⟩ := scanFrameGo_inv _ _ _ _ _ r h
  · refine ⟨h5, h6, h7, Or.inl ⟨?_, h4⟩⟩
    simp only [if_pos rfl] at h1
    simp only [List.mem_cons, List.not_mem_nil, or_false] at hfn
    rcases hfn with rfl | rfl | rfl <;> simp [h1]
  · refine ⟨h5, h6, h7, Or.inr ⟨?_, h4⟩⟩
    simp at h1
    simp only [List.mem_cons, List.not_mem_nil, or_false] at hfn
    rcases hfn with rfl | rfl | rfl <;> simp [h1]

/-- Witness for C9: the single ORF of `ATGAAATAA`. -/
theorem findORFs_record_consistent_witness :
    orfExample ∈ findORFs "ATGAAATAA".toList
    ∧ orfExample.length_nt = orfExample.dna_seq.length
    ∧ orfExample.length_nt % 3 = 0 :=
  ⟨by decide,
    (findORFs_record_consistent "ATGAAATAA".toList orfExample (by decide)).1,
    (findORFs_record_consistent "ATGAAATAA".toList orfExample (by decide)).2.2.1⟩

/-- The fixed restriction-enzyme table `RESTRICTION_ENZYMES`, in source order. -/
def RESTRICTION_ENZYMES : List (String × List Char) :=
  [("EcoRI", "GAATTC".toList), ("BamHI", "GGATCC".toList), ("HindIII", "AAGCTT".toList),
   ("PstI", "CTGCAG".toList), ("SalI", "GTCGAC".toList), ("XbaI", "TCTAGA".toList),
   ("SmaI", "CCCGGG".toList), ("KpnI", "GGTACC".toList), ("NotI", "GCGGCCGC".toList),
   ("XhoI", "CTCGAG".toList), ("NcoI", "CCATGG".toList), ("NdeI", "CATATG".toList),
   ("SacI", "GAGCTC".toList), ("BglII", "AGATCT".toList), ("SpeI", "ACTAGT".toList)]

/-- The recognition sequence `pat` occurs at 0-based position `i` of `s`. -/
def matchesAt (s pat : List Char) (i : Nat) : Prop := listSlice s i (i + pat.length) = pat

instance (s pat : List Char) (i : Nat) : Decidable (matchesAt s pat i) :=
  inferInstanceAs (Decidable (_ = _))

/-- `s.indexOf(pat)` relative to a suffix: offset of the first occurrence of
`pat`, scanning one position at a time. -/
def indexOfOff (pat : List Char) : List Char → Option Nat
  | [] => if pat = [] then some 0 else none
  | c :: rest =>
    if (c :: rest).take pat.length = pat then some 0
    else (indexOfOff pat rest).map (· + 1)

/-- `cleaned.indexOf(site, start)`: first occurrence of `site` at or after
position `start`, or `none` (JS `-1`). -/
def indexOfFrom (s pat : List Char) (start : Nat) : Option Nat :=
  (indexOfOff pat (s.drop start)).map (start + ·)

/-- A slice of a suffix is a shifted slice. -/
theorem listSlice_drop (s : List Char) (d a b : Nat) :
    listSlice (s.drop d) a b = listSlice s (d + a) (d + b) := by
  simp only [listSlice, List.drop_drop]
  have h2 : b - a = d + b - (d + a) := by omega
  rw [h2]

/-- A successful `indexOfOff` search returns the first occurrence. -/
theorem indexOfOff_some {pat s : List Char} {k : Nat} (h : indexOfOff pat s = some k) :
    matchesAt s pat k ∧ ∀ m < k, ¬matchesAt s pat m := by
  induction s generalizing k with
  | nil =>
    by_cases hp : pat = ([] : List Char)
    · rw [indexOfOff, if_pos hp] at h
      cases h
      exact ⟨by simp [matchesAt, listSlice, hp], fun m hm => by omega⟩
    · rw [indexOfOff, if_neg hp] at h
      cases h
  | cons c rest ih =>
    by_cases htake : (c :: rest).take pat.length = pat
    · rw [indexOfOff, if_pos htake] at h
      cases h
      exact ⟨by simpa [matchesAt, listSlice] using htake, fun m hm => by omega⟩
    · rw [indexOfOff, if_neg htake] at h
      obtain ⟨k', hk', rfl⟩ := Option.map_eq_some'.mp h
      obtain ⟨ihm, ihmin⟩ := ih hk'
      constructor
      · simpa [matchesAt, listSlice, List.drop_succ_cons, Nat.succ_sub_succ] using ihm
      · intro m hm
        cases m with
        | zero =>
          simpa [matchesAt, listSlice] using htake
        | succ m' =>
          have := ihmin m' (by omega)
          simpa [matchesAt, listSlice, List.drop_succ_cons, Nat.succ_sub_succ] using this

/-- A failed `indexOfOff` search means no occurrence at all. -/
theorem indexOfOff_none {pat s : List Char} (h : indexOfOff pat s = none) :
    ∀ m, ¬matchesAt s pat m := by
  induction s with
  | nil =>
    intro m
    by_cases hp : pat = ([] : List Char)
    · rw [indexOfOff, if_pos hp] at h
      cases h
    · intro hm
      apply hp
      simp only [matchesAt, listSlice, List.drop_nil, List.take_nil] at hm
      exact hm.symm
  | cons c rest ih =>
    intro m
    by_cases htake : (c :: rest).take pat.length = pat
    · rw [indexOfOff, if_pos htake] at h
      cases h
    · rw [indexOfOff, if_neg htake] at h
      have hrest : indexOfOff pat rest = none := by
        cases hr : indexOfOff pat rest with
        | none => rfl
        | some k => rw [hr] at h; cases h
      cases m with
      | zero => simpa [matchesAt, listSlice] using htake
      | succ m' =>
        have := ih hrest m'
        simpa [matchesAt, listSlice, List.drop_succ_cons, Nat.succ_sub_succ] using this

/-- What a successful `indexOf(site, start)` guarantees. -/
theorem indexOfFrom_some {s pat : List Char} {start i : Nat}
    (h : indexOfFrom s pat start = some i) :
    start ≤ i ∧ matchesAt s pat i ∧ ∀ m, start ≤ m → m < i → ¬matchesAt s pat m := by
  obtain ⟨k, hk, rfl⟩ := Option.map_eq_some'.mp h
  obtain ⟨hm, hmin⟩ := indexOfOff_some hk
  have hsl : ∀ a, matchesAt (s.drop start) pat a ↔ matchesAt s pat (start + a) := by
    intro a
    rw [matchesAt, matchesAt, listSlice_drop]
    have : start + (a + pat.length) = start + a + pat.length := by omega
    rw [this]
  refine ⟨by omega, (hsl k).mp hm, ?_⟩
  intro m hm1 hm2 hmat
  have hlt : m - start < k := by omega
  have : matchesAt (s.drop start) pat (m - start) := by
    rw [hsl (m - start)]
    have : start + (m - start) = m := by omega
    rw [this]
    exact hmat
  exact hmin (m - start) hlt this

/-- What a failed `indexOf(site, start)` guarantees. -/
theorem indexOfFrom_none {s pat : List Char} {start : Nat}
    (h : indexOfFrom s pat start = none) :
    ∀ m, start ≤ m → ¬matchesAt s pat m := by
  intro m hm hmat
  have hnone : indexOfOff pat (s.drop start) = none := by
    cases hr : indexOfOff pat (s.drop start) with
    | none => rfl
    | some k => rw [indexOfFrom, hr] at h; cases h
  apply indexOfOff_none hnone (m - start)
  rw [matchesAt, listSlice_drop]
  have h1 : start + (m - start) = m := by omega
  have h2 : start + (m - start + pat.length) = m + pat.length := by omega
  rw [h1, h2]
  exact hmat

/-- A nonempty pattern matching at `i` fits inside the text. -/
theorem matchesAt_le {s pat : List Char} {i : Nat} (hpat : pat ≠ [])
    (h : matchesAt s pat i) : i + pat.length ≤ s.length := by
  have := congrArg List.length h
  simp only [matchesAt, listSlice, List.length_take, List.length_drop] at this
  have hlen : 0 < pat.length := List.length_pos.mpr hpat
  omega

/-- The `while (index !== -1)` loop of `findRestrictionSites`, with fuel
(each found index is at least the previous search start, so the loop runs at
most `s.length + 1` times for a nonempty site). -/
def collectGo (s pat : List Char) : Nat → Nat → List Nat
  | 0, _ => []
  | fuel + 1, start =>
    match indexOfFrom s pat start with
    | none => []
    | some i => (i + 1) :: collectGo s pat fuel (i + 1)

/-- All 1-based positions of `pat` in `s`, as collected by
`findRestrictionSites` starting from position 0 and resuming one position
after each hit. -/
def collectPositions (s pat : List Char) : List Nat := collectGo s pat (s.length + 1) 0

/-- With enough fuel, the search loop collects exactly the 1-based positions
of all occurrences at or after `start` (overlapping occurrences included,
since each search resumes one position after the previous hit). -/
theorem mem_collectGo {s pat : List Char} (hpat : pat ≠ []) :
    ∀ fuel start, s.length + 1 - start ≤ fuel →
      ∀ p, p ∈ collectGo s pat fuel start ↔
        ∃ i, start ≤ i ∧ matchesAt s pat i ∧ p = i + 1 := by
  intro fuel
  induction fuel with
  | zero =>
    intro start hs p
    simp only [collectGo, List.not_mem_nil, false_iff]
    rintro ⟨i, hi1, hi2, rfl⟩
    have := matchesAt_le hpat hi2
    have hlen : 0 < pat.length := List.length_pos.mpr hpat
    omega
  | succ fuel ih =>
    intro start hs p
    rw [collectGo]
    cases hidx : indexOfFrom s pat start with
    | none =>
      simp only [List.not_mem_nil, false_iff]
      rintro ⟨i, hi1, hi2, rfl⟩
      exact indexOfFrom_none hidx i hi1 hi2
    | some i =>
      obtain ⟨hi1, hi2, hmin⟩ := indexOfFrom_some hidx
      have hle := matchesAt_le hpat hi2
      have hlen : 0 < pat.length := List.length_pos.mpr hpat
      rw [List.mem_cons, ih (i + 1) (by omega) p]
      constructor
      · rintro (rfl | ⟨k, hk1, hk2, rfl⟩)
        · exact ⟨i, hi1, hi2, rfl⟩
        · exact ⟨k, by omega, hk2, rfl⟩
      · rintro ⟨k, hk1, hk2, rfl⟩
        rcases Nat.lt_or_ge k (i + 1) with hki | hki
        · have : k = i := by
            by_contra hne
            exact hmin k hk1 (by omega) hk2
          subst this
          exact Or.inl rfl
        · exact Or.inr ⟨k, hki, hk2, rfl⟩

/-- Positions collected by the loop strictly exceed the search start. -/
theorem collectGo_gt {s pat : List Char} :
    ∀ fuel start, ∀ p ∈ collectGo s pat fuel start, start < p := by
  intro fuel
  induction fuel with
  | zero => intro start p hp; simp [collectGo] at hp
  | succ fuel ih =>
    intro start p hp
    rw [collectGo] at hp
    cases hidx : indexOfFrom s pat start with
    | none => rw [hidx] at hp; simp at hp
    | some i =>
      obtain ⟨hi1, -, -⟩ := indexOfFrom_some hidx
      rw [hidx] at hp
      rcases List.mem_cons.mp hp with rfl | hp'
      · omega
      · have := ih (i + 1) p hp'
        omega

/-- The collected positions are strictly increasing. -/
theorem collectGo_pairwise {s pat : List Char} :
    ∀ fuel start, (collectGo s pat fuel start).Pairwise (· < ·) := by
  intro fuel
  induction fuel with
  | zero => intro start; simp [collectGo]
  | succ fuel ih =>
    intro start
    rw [collectGo]
    cases hidx : indexOfFrom s pat start with
    | none => simp
    | some i =>
      refine List.pairwise_cons.mpr ⟨fun p hp => collectGo_gt fuel (i + 1) p hp, ih (i + 1)⟩

/-- One entry of the `findRestrictionSites` result. -/
structure RestrictionSite where
  enzyme : String
  site : List Char
  positions : List Nat
  count : Nat
deriving DecidableEq

/-- Comparator order of `sites.sort((a, b) => b.count - a.count)`. -/
def siteGE (a b : RestrictionSite) : Prop := b.count ≤ a.count

instance : DecidableRel siteGE := fun a b => Nat.decLe b.count a.count

instance : IsTotal RestrictionSite siteGE := ⟨fun a b => Nat.le_total b.count a.count⟩

instance : IsTrans RestrictionSite siteGE := ⟨fun _ _ _ h1 h2 => le_trans h2 h1⟩

/-- Embeds `findRestrictionSites`: for each enzyme collect the 1-based
positions of its recognition sequence in the cleaned input (search resuming
at `foundIndex + 1`), keep only enzymes with at least one hit, and sort by
descending hit count (the JS runtime sort is modelled as insertion sort; the
order among equal counts is unspecified). -/
def findRestrictionSites (seq : List Char) : List RestrictionSite :=
  let cleaned := cleanSeq seq
  List.insertionSort siteGE (RESTRICTION_ENZYMES.filterMap fun e =>
    let positions := collectPositions cleaned e.2
    if 0 < positions.length then
      some { enzyme := e.1, site := e.2, positions := positions, count := positions.length }
    else none)

/-- Every enzyme in the fixed table has a nonempty recognition sequence. -/
theorem enzyme_sites_nonempty : ∀ e ∈ RESTRICTION_ENZYMES, e.2 ≠ [] := by decide

/-- Claim C8: every entry of `findRestrictionSites` belongs to the enzyme
table and lists exactly the 1-based positions of all (possibly overlapping)
occurrences of its site in the cleaned input, in strictly increasing order,
with `count` the number of hits and no empty entry; every enzyme with at
least one occurrence appears; and the result is sorted by descending count. -/
theorem findRestrictionSites_spec (seq : List Char) :
    (∀ e ∈ findRestrictionSites seq,
        (e.enzyme, e.site) ∈ RESTRICTION_ENZYMES
        ∧ (∀ p, p ∈ e.positions ↔ ∃ i, matchesAt (cleanSeq seq) e.site i ∧ p = i + 1)
        ∧ e.positions.Pairwise (· < ·)
        ∧ e.count = e.positions.length
        ∧ e.positions ≠ [])
    ∧ (∀ nm st, (nm, st) ∈ RESTRICTION_ENZYMES →
        (∃ i, matchesAt (cleanSeq seq) st i) →
        ∃ e ∈ findRestrictionSites seq, e.enzyme = nm ∧ e.site = st)
    ∧ (findRestrictionSites seq).Sorted siteGE := by
  have hmem : ∀ p (pr : String × List Char), pr ∈ RESTRICTION_ENZYMES →
      (p ∈ collectPositions (cleanSeq seq) pr.2 ↔
        ∃ i, matchesAt (cleanSeq seq) pr.2 i ∧ p = i + 1) := by
    intro p pr hpr
    rw [collectPositions, mem_collectGo (enzyme_sites_nonempty pr hpr) _ 0 (by omega) p]
    constructor
    · rintro ⟨i, -, h2, rfl⟩; exact ⟨i, h2, rfl⟩
    · rintro ⟨i, h2, rfl⟩; exact ⟨i, by omega, h2, rfl⟩
  refine ⟨?_, ?_, ?_⟩
  · intro e he
    simp only [findRestrictionSites] at he
    rw [List.mem_insertionSort] at he
    obtain ⟨pr, hpr, hsome⟩ := List.mem_filterMap.mp he
    by_cases hpos : 0 < (collectPositions (cleanSeq seq) pr.2).length
    · rw [if_pos hpos] at hsome
      cases hsome
      exact ⟨hpr, fun p => hmem p pr hpr, collectGo_pairwise _ 0, rfl,
        List.length_pos.mp hpos⟩
    · rw [if_neg hpos] at hsome
      cases hsome
  · rintro nm st hprmem ⟨i, hi⟩
    have hp : (i + 1) ∈ collectPositions (cleanSeq seq) st :=
      (hmem (i + 1) (nm, st) hprmem).mpr ⟨i, hi, rfl⟩
    have hpos : 0 < (collectPositions (cleanSeq seq) st).length :=
      List.length_pos.mpr (List.ne_nil_of_mem hp)
    refine ⟨{ enzyme := nm, site := st,
              positions := collectPositions (cleanSeq seq) st,
              count := (collectPositions (cleanSeq seq) st).length }, ?_, rfl, rfl⟩
    simp only [findRestrictionSites]
    rw [List.mem_insertionSort]
    apply List.mem_filterMap.mpr
    exact ⟨(nm, st), hprmem, by rw [if_pos hpos]⟩
  · simp only [findRestrictionSites]
    exact List.sorted_insertionSort siteGE _

/-- Witness for C8: `GAATTCCGAATTC` carries EcoRI sites at 1-based
positions 1 and 8. -/
theorem findRestrictionSites_spec_witness :
    (("EcoRI", "GAATTC".toList) ∈ RESTRICTION_ENZYMES ∧
        (∃ i, matchesAt (cleanSeq "GAATTCCGAATTC".toList) "GAATTC".toList i)) ∧
      ∃ e ∈ findRestrictionSites "GAATTCCGAATTC".toList,
        e.enzyme = "EcoRI" ∧ e.site = "GAATTC".toList :=
  ⟨⟨by decide, ⟨0, by decide⟩⟩,
    (findRestrictionSites_spec "GAATTCCGAATTC".toList).2.1 "EcoRI" "GAATTC".toList
      (by decide) ⟨0, by decide⟩⟩

/-- The nucleotide counts record of `nucleotideCounts`. -/
structure NucleotideCounts where
  A : Nat
  T : Nat
  G : Nat
  C : Nat
deriving DecidableEq

/-- Embeds `nucleotideCounts`: per-nucleotide counts of the cleaned sequence. -/
def nucleotideCounts (seq : List Char) : NucleotideCounts :=
  let s := cleanSeq seq
  { A := s.count 'A', T := s.count 'T', G := s.count 'G', C := s.count 'C' }

/-- Embeds `calculateMolecularWeight`: weighted sum of per-nucleotide average
molecular weights, rounded to two decimals. -/
def calculateMolecularWeight (seq : List Char) : ℚ :=
  let counts := nucleotideCounts seq
  round2 (counts.A * (3132 / 10 : ℚ) + counts.T * (3042 / 10 : ℚ) +
    counts.G * (3292 / 10 : ℚ) + counts.C * (2892 / 10 : ℚ))

/-- `Object.keys(CODON_TABLE)`: the 64 codons in source insertion order. -/
def CODON_KEYS : List (List Char) :=
  ["TTT", "TTC", "TTA", "TTG", "CTT", "CTC", "CTA", "CTG",
   "ATT", "ATC", "ATA", "ATG", "GTT", "GTC", "GTA", "GTG",
   "TCT", "TCC", "TCA", "TCG", "CCT", "CCC", "CCA", "CCG",
   "ACT", "ACC", "ACA", "ACG", "GCT", "GCC", "GCA", "GCG",
   "TAT", "TAC", "TAA", "TAG", "CAT", "CAC", "CAA", "CAG",
   "AAT", "AAC", "AAA", "AAG", "GAT", "GAC", "GAA", "GAG",
   "TGT", "TGC", "TGA", "TGG", "CGT", "CGC", "CGA", "CGG",
   "AGT", "AGC", "AGA", "AGG", "GGT", "GGC", "GGA", "GGG"].map String.toList

/-- One row of the codon-usage table. -/
structure CodonUsageEntry where
  codon : List Char
  aa : Char
  aaName : String
  count : Nat
  frequency : ℚ
deriving DecidableEq

/-- Comparator order of `codonUsage.sort((a, b) => b.count - a.count)`. -/
def cuGE (a b : CodonUsageEntry) : Prop := b.count ≤ a.count

instance : DecidableRel cuGE := fun a b => Nat.decLe b.count a.count

/-- The frame-1 codon reading of `calculateCodonUsage`: non-overlapping
3-character windows from position 0, dropping a trailing partial window
(`for (let i = 0; i < seq.length - 2; i += 3)`). -/
def frameOneCodons : List Char → List (List Char)
  | c1 :: c2 :: c3 :: rest => [c1, c2, c3] :: frameOneCodons rest
  | _ => []

/-- Embeds `calculateCodonUsage`: count each codon of reading frame 1 of the
cleaned sequence (only table codons are counted), then emit one row per table
codon — zero counts included — with its percentage frequency (0 when no codon
was counted), sorted by descending count. -/
def calculateCodonUsage (seq : List Char) : List CodonUsageEntry :=
  let s := cleanSeq seq
  let counted := (frameOneCodons s).filter fun c => (CODON_TABLE c).isSome
  let totalCodons := counted.length
  let codonUsage := CODON_KEYS.map fun codon =>
    let count := counted.count codon
    let frequency : ℚ := if 0 < totalCodons then round2 ((count : ℚ) / totalCodons * 100) else 0
    { codon := codon, aa := (CODON_TABLE codon).getD 'X',
      aaName := (AA_NAMES ((CODON_TABLE codon).getD 'X')).getD "Unknown",
      count := count, frequency := frequency }
  List.insertionSort cuGE codonUsage

/-- One frame row of `translateAllFrames`. -/
structure FrameTranslation where
  frame : String
  sequence : List Char
deriving DecidableEq

/-- The six-frame translation record. -/
structure SixFrames where
  forward : List FrameTranslation
  reverse : List FrameTranslation
deriving DecidableEq

/-- Embeds `translateAllFrames`: truncate-at-stop translation of the cleaned
sequence and of its reverse complement at offsets 0, 1, 2. -/
def translateAllFrames (seq : List Char) : SixFrames :=
  let cleaned := cleanSeq seq
  let revcomp := reverseComplement cleaned
  { forward := [⟨"+1", translate cleaned⟩, ⟨"+2", translate (cleaned.drop 1)⟩,
      ⟨"+3", translate (cleaned.drop 2)⟩],
    reverse := [⟨"-1", translate revcomp⟩, ⟨"-2", translate (revcomp.drop 1)⟩,
      ⟨"-3", translate (revcomp.drop 2)⟩] }

/-- A JavaScript number as produced by the ratio computations of
`getSequenceStats`: finite, `Infinity` (positive numerator over zero), or
`NaN` (`0/0`). -/
inductive JsNum where
  | num (q : ℚ)
  | posInf
  | nan
deriving DecidableEq

/-- JS division of two nonnegative counts: `0/0` is `NaN`, `a/0` with
`a > 0` is `Infinity`. -/
def jsDivNat (a b : Nat) : JsNum :=
  if b = 0 then (if a = 0 then JsNum.nan else JsNum.posInf)
  else JsNum.num ((a : ℚ) / b)

/-- `x || 0`: replaces the falsy values `NaN` and `0` by `0`; `Infinity` is
truthy and passes through. -/
def jsOrZero : JsNum → JsNum
  | JsNum.nan => JsNum.num 0
  | JsNum.posInf => JsNum.posInf
  | JsNum.num q => if q = 0 then JsNum.num 0 else JsNum.num q

/-- The record returned by `getSequenceStats`. -/
structure SequenceStats where
  length : Nat
  purines : Nat
  pyrimidines : Nat
  gcContent : ℚ
  atContent : ℚ
  gcRatio : JsNum
  atRatio : JsNum
deriving DecidableEq

/-- Embeds `getSequenceStats`: length, purine/pyrimidine counts, GC/AT
percentages, and the `counts.G / counts.C || 0` and `counts.A / counts.T || 0`
ratios with JS division semantics. -/
def getSequenceStats (seq : List Char) : SequenceStats :=
  let cleaned := cleanSeq seq
  let counts := nucleotideCounts cleaned
  { length := cleaned.length,
    purines := counts.A + counts.G,
    pyrimidines := counts.T + counts.C,
    gcContent := gcContent cleaned,
    atContent := atContent cleaned,
    gcRatio := jsOrZero (jsDivNat counts.G counts.C),
    atRatio := jsOrZero (jsDivNat counts.A counts.T) }

/-- The aggregate record returned by `summary`. -/
structure Summary where
  length : Nat
  gc : ℚ
  «at» : ℚ
  tm : ℝ
  molecularWeight : ℚ
  nORFs : Nat
  allORFs : List ORF
  longestORF : Option ORF
  revcomp : List Char
  nucleotides : NucleotideCounts
  codonUsage : List CodonUsageEntry
  sixFrameTranslation : SixFrames
  restrictionSites : List RestrictionSite
  stats : SequenceStats

/-- Embeds `summary`: clean once, then aggregate every analysis. -/
noncomputable def summary (seq : List Char) : Summary :=
  let cleaned := cleanSeq seq
  let allORFs := findORFs cleaned
  let longest := longestORF cleaned
  { length := cleaned.length,
    gc := gcContent cleaned,
    «at» := atContent cleaned,
    tm := meltingTemp cleaned,
    molecularWeight := calculateMolecularWeight cleaned,
    nORFs := allORFs.length,
    allORFs := allORFs,
    longestORF := longest,
    revcomp := reverseComplement cleaned,
    nucleotides := nucleotideCounts cleaned,
    codonUsage := calculateCodonUsage cleaned,
    sixFrameTranslation := translateAllFrames cleaned,
    restrictionSites := findRestrictionSites cleaned,
    stats := getSequenceStats cleaned }

/-- Counterexample to C5 as stated: `summary("")` does not return an empty
codon-usage table — `calculateCodonUsage` always emits all 64 table rows,
zero counts included. -/
theorem summary_empty_codonUsage_ne_nil : (summary []).codonUsage ≠ [] := by decide

/-- Claim C5 as amended: `summary("")` returns length 0, GC 0, AT 0, melting
temperature 0, molecular weight 0, zero ORFs (empty ORF list, no longest
ORF), an empty restriction-site list, and a codon-usage table listing all 64
codons, each with count 0 and frequency 0. -/
theorem summary_empty :
    (summary []).length = 0 ∧ (summary []).gc = 0 ∧ (summary []).«at» = 0
    ∧ (summary []).tm = 0 ∧ (summary []).molecularWeight = 0
    ∧ (summary []).nORFs = 0 ∧ (summary []).allORFs = []
    ∧ (summary []).longestORF = none ∧ (summary []).restrictionSites = []
    ∧ (summary []).codonUsage.length = 64
    ∧ ((summary []).codonUsage.all fun e =>
        decide (e.count = 0) && decide (e.frequency = 0)) = true :=
  ⟨by decide, by decide, by decide, rfl,
    by
      show calculateMolecularWeight (cleanSeq []) = 0
      norm_num [calculateMolecularWeight, nucleotideCounts, cleanSeq, round2],
    by decide, by decide, by decide, by decide, by decide, by decide⟩

/-- Claim C6 evaluated at the failing input `"G"`: the code returns
`Infinity`, not 0, for the G/C ratio when the C count is 0 and the G count is
positive — `counts.G / counts.C || 0` only replaces `NaN` (the `0/0` case),
because `Infinity` is truthy.  The A/T ratio of the same input shows the
`0/0` case, which the guard does turn into 0. -/
theorem getSequenceStats_div_zero :
    (getSequenceStats ['G']).gcRatio = JsNum.posInf
    ∧ (getSequenceStats ['G']).gcRatio ≠ JsNum.num 0
    ∧ (getSequenceStats ['G']).atRatio = JsNum.num 0 := by
  exact ⟨by decide, by decide, by decide⟩

end DnaUtils
